import Mathlib

/-!
# Verification of the Eve Online crash monitor (`src/python/eve_crash_monitor.py`)

This file is a shallow embedding of the crash-detection engine of the
`eveerrormonitor` repository, together with proofs and refutations of its
specified properties.

Modelling conventions:
* Python strings are `List Char`; byte offsets into files coincide with
  character indices (the monitored content is ASCII).
* `str.split(sep)`, `str.strip()`, `in` (substring test) and `str.lower()`
  are re-implemented below with Python's semantics (`pySplit`, `pyStrip`,
  `containsSub`, `pyLower`).
* Timestamps are rationals (seconds); `datetime.now()` becomes an explicit
  `now` parameter of each poll function.
* Python dicts keyed by pid / file path are insertion-ordered association
  lists (`alistGet?`, `alistSet`, …), matching dict semantics.
-/

namespace EveMonitor

/-! ## Python string primitives -/

/-- Python's default `str.strip()` whitespace test, restricted to the ASCII
whitespace characters that can occur in the monitor's output. -/
def isPySpace (c : Char) : Bool :=
  c = ' ' || c = '\t' || c = '\n' || c = '\r' || c = '\x0b' || c = '\x0c'

/-- Python `s.strip()`: drop leading and trailing whitespace. -/
def pyStrip (s : List Char) : List Char :=
  ((s.dropWhile isPySpace).reverse.dropWhile isPySpace).reverse

/-- Python `s.lower()` (ASCII). -/
def pyLower (s : List Char) : List Char :=
  s.map Char.toLower

/-- Python `needle in hay` (substring containment). -/
def containsSub (needle : List Char) : List Char → Bool
  | [] => needle.isPrefixOf []
  | c :: t => needle.isPrefixOf (c :: t) || containsSub needle t

/-- Fuel-driven worker for `pySplit`; the fuel is always instantiated with the
length of the string, which bounds the recursion depth. -/
def pySplitAux (needle : List Char) : Nat → List Char → List (List Char)
  | _, [] => [[]]
  | 0, s => [s]
  | fuel + 1, c :: rest =>
    if !needle.isEmpty && needle.isPrefixOf (c :: rest) then
      [] :: pySplitAux needle fuel (rest.drop (needle.length - 1))
    else
      match pySplitAux needle fuel rest with
      | [] => [[c]]
      | p :: ps => (c :: p) :: ps

/-- Python `s.split(sep)` for a non-empty separator: greedy left-to-right
splitting on every non-overlapping occurrence of `needle`. -/
def pySplit (needle s : List Char) : List (List Char) :=
  pySplitAux needle s.length s

/-- Splice the sections obtained from two halves of a string: the last section
of the first half joins the first section of the second half. -/
def glue : List (List Char) → List (List Char) → List (List Char)
  | [], qs => qs
  | [a], [] => [a]
  | [a], q :: qs => (a ++ q) :: qs
  | a :: b :: as, qs => a :: glue (b :: as) qs

/-! ## Insertion-ordered association lists (Python `dict`) -/

/-- `d.get(k, default)` without the default: first binding of the key. -/
def alistGet? {κ ν : Type} [DecidableEq κ] : List (κ × ν) → κ → Option ν
  | [], _ => none
  | (k, v) :: rest, key => if k = key then some v else alistGet? rest key

/-- `k in d`. -/
def alistHas {κ ν : Type} [DecidableEq κ] (d : List (κ × ν)) (k : κ) : Bool :=
  (alistGet? d k).isSome

/-- `d[k] = v`: replace the binding if present, else append (insertion order,
as for a Python dict). -/
def alistSet {κ ν : Type} [DecidableEq κ] : List (κ × ν) → κ → ν → List (κ × ν)
  | [], key, v => [(key, v)]
  | (k, w) :: rest, key, v =>
    if k = key then (key, v) :: rest else (k, w) :: alistSet rest key v


/-! ## File Tailer (`monitor_log_files`)

`monitor_log_files` keeps `file_positions : Dict[str, int]` and, per poll and
per `*.log` file, skips excluded names, reads the bytes past the checkpoint,
splits them into lines, and scans each line for the fixed error patterns.
A file is modelled as its path (`str(log_file)`), its base name
(`log_file.name`) and its current content. -/

/-- The fixed `error_patterns` list of `monitor_log_files`. -/
def error_patterns : List (List Char) :=
  ["exception".toList, "error".toList, "crash".toList, "fault".toList,
   "violation".toList, "access violation".toList, "memory error".toList,
   "stack overflow".toList, "assertion failed".toList, "fatal error".toList,
   "unhandled exception".toList]

/-- The `log_file_error` crash-data dict built at lines 340–347 of the source
(the fields the File Tailer fills in; the wall-clock `timestamp` field is
omitted, being irrelevant to the tailer's behaviour). -/
structure LogMatch where
  file : List Char
  line_number : Nat
  content : List Char
  pattern_matched : List Char
deriving DecidableEq, Repr

/-- The inner `for pattern in error_patterns` loop of `monitor_log_files`:
one record is appended for every pattern contained in the lowered line —
there is no `break` after a match. -/
def scanPatterns (file : List Char) (line_number : Nat) (line : List Char) :
    List (List Char) → List LogMatch
  | [] => []
  | p :: rest =>
    if containsSub p (pyLower line) then
      { file := file, line_number := line_number,
        content := pyStrip line, pattern_matched := p } ::
        scanPatterns file line_number line rest
    else
      scanPatterns file line_number line rest

/-- The `for i, line in enumerate(lines)` loop: the `line_number` recorded is
`last_position + i + 1` where `last_position` is the checkpoint byte offset. -/
def scanContent (file : List Char) (last_position : Nat) (new_content : List Char) :
    List LogMatch :=
  (pySplit ['\n'] new_content).enum.flatMap
    (fun ie => scanPatterns file (last_position + ie.1 + 1) ie.2 error_patterns)

/-- A file visible to the tailer's `glob("*.log")` pass. -/
structure LogFile where
  path : List Char
  name : List Char
  content : List Char
deriving DecidableEq

/-- The hard-coded `exclude_files` list of `monitor_log_files`. -/
def exclude_files : List (List Char) :=
  ["eve_crash_monitor.log".toList, "eve_crash_log.txt".toList]

/-- The skip test at lines 320–323 of the source: exact-name membership in the
hard-coded `exclude_files`, or one of the two hard-coded substrings occurring
in the full path.  (The configuration keys `exclude_files`/`exclude_patterns`
are never consulted here.) -/
def isExcluded (path name : List Char) : Bool :=
  decide (name ∈ exclude_files) ||
    containsSub "eve_crash_monitor.log".toList path ||
    containsSub "eve_crash_log.txt".toList path

/-- One iteration of the tailer's per-file body: skip excluded files; if the
size grew past the checkpoint, read from the checkpoint to the end, scan, and
advance the checkpoint to the new size; otherwise do nothing (in particular a
shrunken file is left untouched — there is no rotation reset). -/
def tailerPollFile (positions : List (List Char × Nat)) (f : LogFile) :
    List LogMatch × List (List Char × Nat) :=
  if isExcluded f.path f.name then ([], positions)
  else
    let current_size := f.content.length
    let last_position := (alistGet? positions f.path).getD 0
    if last_position < current_size then
      (scanContent f.path last_position (f.content.drop last_position),
        alistSet positions f.path current_size)
    else
      ([], positions)

/-- One full tailer poll over the files of the watched directories. -/
def tailerPoll (positions : List (List Char × Nat)) :
    List LogFile → List LogMatch × List (List Char × Nat)
  | [] => ([], positions)
  | f :: rest =>
    let step := tailerPollFile positions f
    let next := tailerPoll step.2 rest
    (step.1 ++ next.1, next.2)

/-! ## Event Sink (`log_crash_event` / `generate_report`)

`log_crash_event` renders a crash-data dict into a fixed text block and
appends it to the output file; `generate_report` re-reads the file, splits it
on `'CRASH DETECTED:'` and reports counts.  The sink file is modelled as its
character content (`none` = the file does not exist).  Numeric and timestamp
dict values are modelled as the text Python interpolates for them
(`natStr n` for ints, an arbitrary string for floats/isoformat timestamps). -/

/-- The separator `generate_report` splits the sink file on. -/
def needle : List Char := "CRASH DETECTED:".toList

/-- `'='*80`, the block delimiter line. -/
def eqLine : List Char := List.replicate 80 '='

/-- The text every rendered block starts with, up to `CRASH DETECTED:`:
a newline, the delimiter line and another newline. -/
def hdrPre : List Char := '\n' :: (eqLine ++ ['\n'])

/-- Python `str(n)` for a non-negative int. -/
def natStr (n : Nat) : List Char := (Nat.repr n).toList

/-- Python `str(b)` for a bool. -/
def pyBool (b : Bool) : List Char :=
  if b then "True".toList else "False".toList

/-- The three crash-data dict shapes produced by the three watchers (the
`log_crash_event` fallback branch for unrecognized `type` values is not
modelled: no watcher produces such a dict).  Float-valued fields
(`runtime_seconds`, the `.1f`-formatted `memory_usage_mb`) and isoformat
timestamps are carried as the interpolated text. -/
inductive CrashData where
  | processTermination (timestamp : List Char) (pid : Nat)
      (runtime_seconds : List Char) (memory_usage_mb : List Char)
      (start_time : List Char) (end_time : List Char) (suspected_crash : Bool)
  | windowsEventLog (timestamp : List Char) (event_id : Nat)
      (source : List Char) (category : List Char) (description : List Char)
  | logFileError (timestamp : List Char) (file : List Char) (line_number : Nat)
      (pattern_matched : List Char) (content : List Char)
deriving DecidableEq

/-- The rendered text of a block after the literal `CRASH DETECTED:`
(the space and timestamp of the header line, then the variant's labeled
fields, ending with the delimiter line and a blank line). -/
def blockBody : CrashData → List Char
  | .processTermination ts pid runtime mem st et susp =>
    " ".toList ++ ts ++ "\n".toList ++ eqLine ++
    "\nCrash Type: Process Termination\nProcess ID: ".toList ++ natStr pid ++
    "\nRuntime: ".toList ++ runtime ++ " seconds\nMemory Usage: ".toList ++ mem ++
    " MB\nStart Time: ".toList ++ st ++ "\nEnd Time: ".toList ++ et ++
    "\nSuspected Crash: ".toList ++ pyBool susp ++
    "\n\nAdditional Details: Process terminated ".toList ++
    (if susp then "abnormally".toList else "normally".toList) ++
    "\n".toList ++ eqLine ++ "\n\n".toList
  | .windowsEventLog ts eid src cat desc =>
    " ".toList ++ ts ++ "\n".toList ++ eqLine ++
    "\nCrash Type: Windows Event Log Error\nEvent ID: ".toList ++ natStr eid ++
    "\nSource: ".toList ++ src ++ "\nCategory: ".toList ++ cat ++
    "\nDescription: ".toList ++ desc ++
    "\n\nAdditional Details: System event log crash detection\n".toList ++
    eqLine ++ "\n\n".toList
  | .logFileError ts file ln pat content =>
    " ".toList ++ ts ++ "\n".toList ++ eqLine ++
    "\nCrash Type: Log File Error Pattern\nFile: ".toList ++ file ++
    "\nLine Number: ".toList ++ natStr ln ++
    "\nPattern Matched: ".toList ++ pat ++ "\nContent: ".toList ++ content ++
    "\n\nAdditional Details: Error pattern detected in Eve Online log files\n".toList ++
    eqLine ++ "\n\n".toList

/-- The full rendered block: per the source template each block is a newline,
the delimiter line, a newline, `CRASH DETECTED: <timestamp>`, and the
variant's body. -/
def renderBlock (r : CrashData) : List Char :=
  hdrPre ++ needle ++ blockBody r

/-- `log_crash_event`: append the rendered block to the sink file content. -/
def log_crash_event (file : List Char) (r : CrashData) : List Char :=
  file ++ renderBlock r

/-- A sequence of `log_crash_event` calls, in the order their writes reach
the file. -/
def appendAll (file : List Char) (rs : List CrashData) : List Char :=
  rs.foldl log_crash_event file

/-- The result dict of `generate_report`, restricted to the shapes the claims
concern: the two message-only dicts and the statistics dict with its
`total_crashes` count. -/
inductive Report where
  | noData      -- {"message": "No crash data found"}
  | noCrashes   -- {"message": "No crashes recorded"}
  | stats (total_crashes : Nat)
deriving DecidableEq

/-- `generate_report`: `none` models a missing sink file; otherwise the file
content is split on `'CRASH DETECTED:'`, sections that are whitespace-only
after `strip()` are dropped, and the remaining candidate records are
counted. -/
def generate_report : Option (List Char) → Report
  | none => .noData
  | some content =>
    let crash_sections := pySplit needle content
    let crashes := crash_sections.filter (fun s => !(pyStrip s).isEmpty)
    if crashes.isEmpty then .noCrashes
    else .stats crashes.length

/-- The `total_crashes` entry of a report, when present. -/
def totalRecords : Report → Option Nat
  | .stats n => some n
  | _ => none

/-! ## Process Tracker (`monitor_processes`)

One iteration of the `while self.monitoring` loop body, parametrised by the
process table snapshot (`current`), the clock (`now`, rational seconds — the
source's repeated `datetime.now()` calls within one iteration are collapsed
into this single instant) and the configured `crash_detection_threshold`. -/

/-- One row of the polled process table (`psutil` process info): pid, RSS
memory in bytes, CPU percentage. -/
structure ProcInfo where
  pid : Nat
  memory_rss : Nat
  cpu : ℚ
deriving DecidableEq

/-- The per-pid dict value stored in `self.eve_processes` (the `process`
handle itself carries no behaviour and is omitted). -/
structure TrackedInfo where
  start_time : ℚ
  last_seen : ℚ
  memory_usage : Nat
  cpu_usage : ℚ
deriving DecidableEq

/-- The `process_termination` crash-data dict built at lines 194–203 of the
source. -/
structure ProcTermRecord where
  timestamp : ℚ
  pid : Nat
  runtime_seconds : ℚ
  start_time : ℚ
  end_time : ℚ
  memory_usage_mb : ℚ
  suspected_crash : Bool
deriving DecidableEq

/-- The "Check for new processes" loop: every present pid not yet tracked is
inserted with start time and last-seen both `now`, emitting nothing. -/
def insertNewProcs (tracked : List (Nat × TrackedInfo)) (now : ℚ) :
    List ProcInfo → List (Nat × TrackedInfo)
  | [] => tracked
  | p :: rest =>
    if alistHas tracked p.pid then insertNewProcs tracked now rest
    else insertNewProcs (tracked ++ [(p.pid, ⟨now, now, p.memory_rss, 0⟩)]) now rest

/-- The crash-data dict for one terminated tracked entry. -/
def mkTermRecord (now θ : ℚ) (e : Nat × TrackedInfo) : ProcTermRecord :=
  { timestamp := now
    pid := e.1
    runtime_seconds := now - e.2.start_time
    start_time := e.2.start_time
    end_time := now
    memory_usage_mb := (e.2.memory_usage : ℚ) / (1024 * 1024)
    suspected_crash := decide (now - e.2.start_time < θ) }

/-- The "Update existing processes" loop: refresh last-seen, memory and CPU of
every still-present tracked pid. -/
def updateSeen (tracked : List (Nat × TrackedInfo)) (now : ℚ) :
    List ProcInfo → List (Nat × TrackedInfo)
  | [] => tracked
  | p :: rest =>
    match alistGet? tracked p.pid with
    | some v =>
      updateSeen (alistSet tracked p.pid ⟨v.start_time, now, p.memory_rss, p.cpu⟩) now rest
    | none => updateSeen tracked now rest

/-- One full `monitor_processes` poll cycle: insert arrivals, emit one
`process_termination` record per tracked pid absent from the present set
(with the strict `runtime < threshold` suspected-crash test) and delete it,
then update the still-present entries.  Returns the new tracked map and the
emitted records. -/
def monitor_processes_cycle (tracked : List (Nat × TrackedInfo))
    (current : List ProcInfo) (now θ : ℚ) :
    List (Nat × TrackedInfo) × List ProcTermRecord :=
  let current_pids := current.map ProcInfo.pid
  let t₁ := insertNewProcs tracked now current
  let records := (t₁.filter (fun e => !decide (e.1 ∈ current_pids))).map (mkTermRecord now θ)
  let t₂ := t₁.filter (fun e => decide (e.1 ∈ current_pids))
  (updateSeen t₂ now current, records)

/-! ## Event Log Watcher (`get_recent_crash_events`)

The win32 interaction is abstracted as its outcome: `win32_avail` models
module availability, and `readResult` the combined
`OpenEventLog`/`ReadEventLog` call, which either raises (`Except.error`,
caught by the function's `try`/`except`) or yields the entries. -/

/-- `win32evtlog.EVENTLOG_ERROR_TYPE`. -/
def EVENTLOG_ERROR_TYPE : Nat := 1

/-- One Windows event-log entry (`SourceName = None` is modelled as the empty,
falsy, string). -/
structure EventLogEntry where
  time_generated : ℚ
  event_type : Nat
  source_name : List Char
  event_id : Nat
  string_inserts : Option (List Char)
  event_category : Nat
deriving DecidableEq

/-- The `windows_event_log` crash-data dict built at lines 276–283. -/
structure EventLogRecord where
  timestamp : ℚ
  event_id : Nat
  source : List Char
  description : List Char
  category : Nat
deriving DecidableEq

/-- The filter at lines 268–274: newer than `since`, error severity, truthy
source name, and source containing "eve"/"exefile" (case-insensitively via the
lowered name) or event id 1000/1001. -/
def eventMatches (since : ℚ) (e : EventLogEntry) : Bool :=
  decide (since < e.time_generated) &&
    (decide (e.event_type = EVENTLOG_ERROR_TYPE) &&
      (!e.source_name.isEmpty &&
        (containsSub "eve".toList (pyLower e.source_name) ||
          (containsSub "exefile".toList (pyLower e.source_name) ||
            decide (e.event_id ∈ [1000, 1001])))))

/-- Build the crash-data dict for a matching entry. -/
def mkEventRecord (e : EventLogEntry) : EventLogRecord :=
  { timestamp := e.time_generated
    event_id := e.event_id
    source := e.source_name
    description :=
      match e.string_inserts with
      | some s => s
      | none => "No description".toList
    category := e.event_category }

/-- `get_recent_crash_events`: returns `[]` when `win32evtlog` is unavailable;
otherwise the whole read is wrapped in `try`/`except`, so a failed read also
yields `[]`; a successful read yields the matching entries' records. -/
def get_recent_crash_events (win32_avail : Bool)
    (readResult : Except (List Char) (List EventLogEntry)) (since : ℚ) :
    List EventLogRecord :=
  if !win32_avail then []
  else
    match readResult with
    | .error _ => []
    | .ok events => (events.filter (eventMatches since)).map mkEventRecord

/-! ## Concrete inputs used by counterexamples and witnesses -/

/-- A concrete `process_termination` record. -/
def sampleProcRecord : CrashData :=
  .processTermination "2025-01-01T00:00:12".toList 4242 "12.5".toList
    "512.0".toList "2025-01-01T00:00:00".toList "2025-01-01T00:00:12".toList true

/-- A concrete `log_file_error` record. -/
def sampleLogRecord : CrashData :=
  .logFileError "2025-01-02T10:00:00".toList "C:/EVE/logs/client.log".toList 3
    "error".toList "fatal error in shader".toList

/-- A concrete watched log file whose name would match the configured
exclusion pattern "monitor". -/
def monitorNamedFile : LogFile :=
  ⟨"C:/EVE/logs/crash_monitor.log".toList, "crash_monitor.log".toList, "error\n".toList⟩

/-! ## Lemmas -/

/-! ### Basic facts about the string primitives -/

theorem pySplitAux_fuel_bound (needle : List Char) :
    ∀ n s f, s.length ≤ n → s.length ≤ f →
      pySplitAux needle f s = pySplitAux needle s.length s := by
  intro n
  induction n with
  | zero =>
    intro s f h₁ _
    have hs : s = [] := List.length_eq_zero.mp (Nat.le_zero.mp h₁)
    subst hs
    cases f <;> rfl
  | succ n ih =>
    intro s f h₁ h₂
    match s, f with
    | [], 0 => rfl
    | [], g + 1 => rfl
    | c :: rest, g + 1 =>
      simp only [pySplitAux, List.length_cons]
      cases hpre : (!needle.isEmpty && needle.isPrefixOf (c :: rest)) with
      | true =>
        simp only [if_true]
        have hd := List.length_drop (needle.length - 1) rest
        simp only [List.length_cons] at h₁ h₂
        rw [ih _ g (by omega) (by omega), ih _ rest.length (by omega) (by omega)]
      | false =>
        simp only [if_false, Bool.false_eq_true]
        simp only [List.length_cons] at h₁ h₂
        rw [ih rest g (by omega) (by omega), ih rest rest.length (by omega) (by omega)]

theorem pySplitAux_fuel (needle : List Char) (s : List Char) (f : Nat)
    (hf : s.length ≤ f) :
    pySplitAux needle f s = pySplitAux needle s.length s :=
  pySplitAux_fuel_bound needle s.length s f le_rfl hf

theorem pySplit_nil (needle : List Char) : pySplit needle [] = [[]] := rfl

theorem pySplit_cons_match {needle : List Char} (c : Char) (rest : List Char)
    (hne : needle ≠ []) (hpre : needle.isPrefixOf (c :: rest)) :
    pySplit needle (c :: rest) =
      [] :: pySplit needle (rest.drop (needle.length - 1)) := by
  have hb : (!needle.isEmpty && needle.isPrefixOf (c :: rest)) = true := by
    simp [hpre, List.isEmpty_iff, hne]
  unfold pySplit
  simp only [List.length_cons, pySplitAux, hb, if_true]
  congr 1
  exact pySplitAux_fuel needle _ rest.length
    (by have := List.length_drop (needle.length - 1) rest; omega)

theorem pySplit_cons_nomatch {needle : List Char} (c : Char) (rest : List Char)
    (h : (!needle.isEmpty && needle.isPrefixOf (c :: rest)) = false) :
    pySplit needle (c :: rest) =
      match pySplit needle rest with
      | [] => [[c]]
      | p :: ps => (c :: p) :: ps := by
  unfold pySplit
  simp only [List.length_cons, pySplitAux, h, if_false, Bool.false_eq_true]

theorem pySplit_ne_nil (needle s : List Char) : pySplit needle s ≠ [] := by
  match s with
  | [] => simp [pySplit_nil]
  | c :: rest =>
    cases h : (!needle.isEmpty && needle.isPrefixOf (c :: rest)) with
    | true =>
      have h' := h
      simp only [Bool.and_eq_true, Bool.not_eq_true'] at h'
      have hne : needle ≠ [] := by simpa [List.isEmpty_iff] using h'.1
      rw [pySplit_cons_match c rest hne h'.2]
      simp
    | false =>
      rw [pySplit_cons_nomatch c rest h]
      cases pySplit needle rest <;> simp

/-- Prepending text none of whose characters equals the first character of the
separator only extends the first section of the split. -/
theorem pySplit_prepend_clean {needle : List Char} {nc : Char} {nrest : List Char}
    (hn : needle = nc :: nrest) :
    ∀ pre s, (∀ c ∈ pre, c ≠ nc) →
      pySplit needle (pre ++ s) =
        match pySplit needle s with
        | [] => [pre]
        | p :: ps => (pre ++ p) :: ps := by
  intro pre
  induction pre with
  | nil =>
    intro s _
    obtain ⟨p, ps, hps⟩ := List.exists_cons_of_ne_nil (pySplit_ne_nil needle s)
    simp [hps]
  | cons c pre ih =>
    intro s h
    have hcne : c ≠ nc := h c (List.mem_cons_self c pre)
    have hnm : (!needle.isEmpty && needle.isPrefixOf (c :: (pre ++ s))) = false := by
      subst hn
      simp only [List.isPrefixOf]
      have : (nc == c) = false := by
        simp only [beq_eq_false_iff_ne, ne_eq]
        exact fun hc => hcne hc.symm
      simp [this]
    rw [List.cons_append, pySplit_cons_nomatch c (pre ++ s) hnm,
      ih s (fun x hx => h x (List.mem_cons_of_mem c hx))]
    obtain ⟨p, ps, hps⟩ := List.exists_cons_of_ne_nil (pySplit_ne_nil needle s)
    simp [hps]

/-- Splitting a string that starts with the separator itself. -/
theorem pySplit_self_prefix {needle : List Char} (hne : needle ≠ []) (t : List Char) :
    pySplit needle (needle ++ t) = [] :: pySplit needle t := by
  obtain ⟨nc, nrest, hn⟩ := List.exists_cons_of_ne_nil hne
  subst hn
  have hpre : (nc :: nrest).isPrefixOf (nc :: nrest ++ t) = true := by
    rw [List.isPrefixOf_iff_prefix]
    exact (List.prefix_append _ _)
  rw [List.cons_append, pySplit_cons_match nc (nrest ++ t) hne hpre]
  congr 1
  have : (nc :: nrest).length - 1 = nrest.length := by simp
  rw [this, List.drop_left]

/-- If the separator does not contain `'\n'`, no occurrence of it straddles a
`'\n'` boundary, so splitting distributes over the two halves via `glue`. -/
theorem pySplit_append_newline {needle : List Char} (hne : needle ≠ [])
    (hnl : '\n' ∉ needle) :
    ∀ n C xs, C.length ≤ n →
      pySplit needle (C ++ '\n' :: xs) =
        glue (pySplit needle C) (pySplit needle ('\n' :: xs)) := by
  intro n
  induction n with
  | zero =>
    intro C xs hC
    have hc : C = [] := List.length_eq_zero.mp (Nat.le_zero.mp hC)
    subst hc
    obtain ⟨q, qs, hq⟩ := List.exists_cons_of_ne_nil (pySplit_ne_nil needle ('\n' :: xs))
    simp [pySplit_nil, glue, hq]
  | succ n ih =>
    intro C xs hC
    match C with
    | [] =>
      obtain ⟨q, qs, hq⟩ := List.exists_cons_of_ne_nil (pySplit_ne_nil needle ('\n' :: xs))
      simp [pySplit_nil, glue, hq]
    | c :: rC =>
      simp only [List.length_cons] at hC
      cases hb : needle.isPrefixOf (c :: (rC ++ '\n' :: xs)) with
      | true =>
        -- the separator matches here; it cannot extend past `rC` into the
        -- second half because it contains no newline
        have hpfx : needle <+: c :: (rC ++ '\n' :: xs) :=
          List.isPrefixOf_iff_prefix.mp hb
        have hlen : needle.length ≤ (c :: rC).length := by
          by_contra hlong
          push_neg at hlong
          have heq := List.prefix_iff_eq_take.mp hpfx
          rw [show (c :: (rC ++ '\n' :: xs)) = (c :: rC) ++ '\n' :: xs by simp,
            List.take_append_eq_append_take] at heq
          have hk : 0 < needle.length - (c :: rC).length := by omega
          have hmem : '\n' ∈ needle := by
            rw [heq]
            refine List.mem_append_right _ ?_
            rcases hkk : needle.length - (c :: rC).length with _ | k
            · omega
            · simp [hkk, List.take_cons]
          exact hnl hmem
        have hpA : needle <+: (c :: rC) := by
          have heq := List.prefix_iff_eq_take.mp hpfx
          rw [show (c :: (rC ++ '\n' :: xs)) = (c :: rC) ++ '\n' :: xs by simp,
            List.take_append_eq_append_take, Nat.sub_eq_zero_of_le hlen,
            List.take_zero, List.append_nil] at heq
          exact heq ▸ List.take_prefix _ _
        have hbA : needle.isPrefixOf (c :: rC) = true :=
          List.isPrefixOf_iff_prefix.mpr hpA
        have hdrop : (rC ++ '\n' :: xs).drop (needle.length - 1) =
            rC.drop (needle.length - 1) ++ '\n' :: xs := by
          rw [List.drop_append_eq_append_drop]
          have : needle.length - 1 - rC.length = 0 := by
            simp only [List.length_cons] at hlen; omega
          rw [this, List.drop_zero]
        rw [show (c :: rC) ++ '\n' :: xs = c :: (rC ++ '\n' :: xs) by simp,
          pySplit_cons_match c (rC ++ '\n' :: xs) hne (by simpa using hb),
          pySplit_cons_match c rC hne (by simpa using hbA), hdrop,
          ih (rC.drop (needle.length - 1)) xs
            (by have := List.length_drop (needle.length - 1) rC; omega)]
        obtain ⟨p, ps, hps⟩ :=
          List.exists_cons_of_ne_nil (pySplit_ne_nil needle (rC.drop (needle.length - 1)))
        rw [hps]
        rfl
      | false =>
        have hbA : needle.isPrefixOf (c :: rC) = false := by
          cases hA : needle.isPrefixOf (c :: rC) with
          | false => rfl
          | true =>
            exfalso
            have : needle <+: c :: (rC ++ '\n' :: xs) := by
              have h1 : needle <+: (c :: rC) := List.isPrefixOf_iff_prefix.mp hA
              have h2 : (c :: rC) <+: (c :: rC) ++ '\n' :: xs := List.prefix_append _ _
              simpa using h1.trans h2
            rw [List.isPrefixOf_iff_prefix.mpr this] at hb
            simp at hb
        have hne' : needle.isEmpty = false := by
          cases needle with
          | nil => exact absurd rfl hne
          | cons a l => rfl
        rw [show (c :: rC) ++ '\n' :: xs = c :: (rC ++ '\n' :: xs) by simp,
          pySplit_cons_nomatch c (rC ++ '\n' :: xs) (by simp [hb, hne']),
          ih rC xs (by omega),
          pySplit_cons_nomatch c rC (by simp [hbA, hne'])]
        obtain ⟨p, ps, hps⟩ := List.exists_cons_of_ne_nil (pySplit_ne_nil needle rC)
        obtain ⟨q, qs, hq⟩ := List.exists_cons_of_ne_nil (pySplit_ne_nil needle ('\n' :: xs))
        rw [hps, hq]
        match ps with
        | [] => simp [glue]
        | b :: bs => simp [glue]

/-! ### `pyStrip` facts -/

theorem pyStrip_eq_nil_iff {s : List Char} :
    pyStrip s = [] ↔ ∀ c ∈ s, isPySpace c := by
  unfold pyStrip
  rw [List.reverse_eq_nil_iff, List.dropWhile_eq_nil_iff]
  simp only [List.mem_reverse]
  constructor
  · intro h c hc
    have hs : List.takeWhile isPySpace s ++ List.dropWhile isPySpace s = s :=
      List.takeWhile_append_dropWhile isPySpace s
    rw [← hs] at hc
    rcases List.mem_append.mp hc with h1 | h1
    · exact List.mem_takeWhile_imp h1
    · exact h c h1
  · intro h c hc
    exact h c ((List.dropWhile_sublist _).subset hc)

theorem pyStrip_ne_nil_of_mem {s : List Char} {c : Char}
    (hc : c ∈ s) (hns : isPySpace c = false) : pyStrip s ≠ [] := by
  intro h
  have := pyStrip_eq_nil_iff.mp h c hc
  rw [hns] at this
  exact Bool.false_ne_true this

theorem alistGet?_set_same {κ ν : Type} [DecidableEq κ]
    (d : List (κ × ν)) (k : κ) (v : ν) :
    alistGet? (alistSet d k v) k = some v := by
  induction d with
  | nil => simp [alistSet, alistGet?]
  | cons e rest ih =>
    obtain ⟨k', w⟩ := e
    by_cases h : k' = k
    · simp [alistSet, alistGet?, h]
    · simp [alistSet, alistGet?, h, ih]

theorem alistGet?_set_other {κ ν : Type} [DecidableEq κ]
    (d : List (κ × ν)) (k k' : κ) (v : ν) (hk : k ≠ k') :
    alistGet? (alistSet d k v) k' = alistGet? d k' := by
  induction d with
  | nil => simp [alistSet, alistGet?, hk]
  | cons e rest ih =>
    obtain ⟨k₀, w⟩ := e
    by_cases h : k₀ = k
    · subst h
      simp [alistSet, alistGet?, hk]
    · simp [alistSet, alistGet?, h, ih]

theorem alistGet?_append {κ ν : Type} [DecidableEq κ]
    (d₁ d₂ : List (κ × ν)) (k : κ) :
    alistGet? (d₁ ++ d₂) k =
      ((alistGet? d₁ k).rec (alistGet? d₂ k) (fun v => some v) : Option ν) := by
  induction d₁ with
  | nil => simp [alistGet?]
  | cons e rest ih =>
    obtain ⟨k₀, w⟩ := e
    by_cases h : k₀ = k
    · simp [alistGet?, h]
    · simp [alistGet?, h, ih]

theorem alistHas_of_mem {κ ν : Type} [DecidableEq κ]
    {d : List (κ × ν)} {e : κ × ν} (he : e ∈ d) :
    alistHas d e.1 = true := by
  induction d with
  | nil => simp at he
  | cons e₀ rest ih =>
    obtain ⟨k₀, w⟩ := e₀
    rcases List.mem_cons.mp he with h | h
    · subst h
      simp [alistHas, alistGet?]
    · by_cases hk : k₀ = e.1
      · simp [alistHas, alistGet?, hk]
      · have := ih h
        simpa [alistHas, alistGet?, hk] using this

/-! ### Block structure of the sink file -/

theorem needle_ne_nil : needle ≠ [] := by decide

theorem newline_not_mem_needle : '\n' ∉ needle := by decide

theorem needle_eq_cons : needle = 'C' :: "RASH DETECTED:".toList := by decide

theorem hdrPre_no_needle_head : ∀ c ∈ hdrPre, c ≠ 'C' := by decide

theorem eq_mem_hdrPre : '=' ∈ hdrPre := by decide

theorem eq_not_space : isPySpace '=' = false := by decide

theorem eq_mem_blockBody (r : CrashData) : '=' ∈ blockBody r := by
  have heq : '=' ∈ eqLine := by decide
  cases r <;>
    (simp only [blockBody]
     exact List.mem_append_left _ (List.mem_append_right _ heq))

theorem renderBlock_eq_cons (r : CrashData) :
    renderBlock r = '\n' :: ((eqLine ++ ['\n']) ++ needle ++ blockBody r) := by
  simp [renderBlock, hdrPre]

/-- Splitting one rendered block: the text before `CRASH DETECTED:` and the
body, provided the body itself contains no further occurrence of the
separator. -/
theorem pySplit_renderBlock (r : CrashData)
    (hclean : pySplit needle (blockBody r) = [blockBody r]) :
    pySplit needle (renderBlock r) = [hdrPre, blockBody r] := by
  have h1 : pySplit needle (needle ++ blockBody r) =
      [] :: pySplit needle (blockBody r) :=
    pySplit_self_prefix needle_ne_nil _
  have h2 := pySplit_prepend_clean needle_eq_cons hdrPre (needle ++ blockBody r)
    hdrPre_no_needle_head
  rw [renderBlock, List.append_assoc, h2, h1, hclean]
  simp

/-- Splitting the concatenation of rendered blocks: one leading `hdrPre`
section followed by one section per block, each containing a delimiter
character. -/
theorem pySplit_flatten_blocks :
    ∀ (rs : List CrashData) (r : CrashData),
      (∀ x ∈ r :: rs, pySplit needle (blockBody x) = [blockBody x]) →
      ∃ secs, pySplit needle ((r :: rs).map renderBlock).flatten = hdrPre :: secs ∧
        secs.length = rs.length + 1 ∧ ∀ s ∈ secs, '=' ∈ s := by
  intro rs
  induction rs with
  | nil =>
    intro r h
    refine ⟨[blockBody r], ?_, rfl, ?_⟩
    · have : ((([r]).map renderBlock).flatten) = renderBlock r := by simp
      rw [this, pySplit_renderBlock r (h r (List.mem_cons_self r []))]
    · intro s hs
      rw [List.mem_singleton] at hs
      subst hs
      exact eq_mem_blockBody r
  | cons r₂ rest ih =>
    intro r h
    obtain ⟨secs, hsecs, hlen, hmem⟩ :=
      ih r₂ (fun x hx => h x (List.mem_cons_of_mem r hx))
    have hflat : ((r :: r₂ :: rest).map renderBlock).flatten =
        renderBlock r ++ ((r₂ :: rest).map renderBlock).flatten := by
      simp
    have hys : ((r₂ :: rest).map renderBlock).flatten =
        '\n' :: (((eqLine ++ ['\n']) ++ needle ++ blockBody r₂) ++
          ((rest).map renderBlock).flatten) := by
      simp [renderBlock_eq_cons r₂]
    refine ⟨(blockBody r ++ hdrPre) :: secs, ?_, by simp [hlen], ?_⟩
    · rw [hflat, hys,
        pySplit_append_newline needle_ne_nil newline_not_mem_needle
          (renderBlock r).length (renderBlock r) _ le_rfl,
        pySplit_renderBlock r (h r (List.mem_cons_self r _)), ← hys, hsecs]
      rfl
    · intro s hs
      rcases List.mem_cons.mp hs with hs | hs
      · subst hs
        exact List.mem_append_left _ (eq_mem_blockBody r)
      · exact hmem s hs

/-- Unfolding the `foldl` of successive appends. -/
theorem appendAll_eq_flatten :
    ∀ (rs : List CrashData) (c : List Char),
      appendAll c rs = c ++ (rs.map renderBlock).flatten := by
  intro rs
  induction rs with
  | nil => intro c; simp [appendAll]
  | cons r rest ih =>
    intro c
    have : appendAll c (r :: rest) = appendAll (log_crash_event c r) rest := rfl
    rw [this, ih, log_crash_event]
    simp [List.append_assoc]

/-! ### Process Tracker lemmas -/

theorem insertNewProcs_split :
    ∀ (current : List ProcInfo) (tracked : List (Nat × TrackedInfo)) (now : ℚ),
      ∃ ext, insertNewProcs tracked now current = tracked ++ ext ∧
        ∀ e ∈ ext, e.1 ∈ current.map ProcInfo.pid := by
  intro current
  induction current with
  | nil =>
    intro t now
    exact ⟨[], by simp [insertNewProcs], by simp⟩
  | cons p rest ih =>
    intro t now
    by_cases h : alistHas t p.pid = true
    · obtain ⟨ext, heq, hmem⟩ := ih t now
      refine ⟨ext, ?_, ?_⟩
      · rw [insertNewProcs, if_pos h, heq]
      · intro e he
        exact List.mem_cons_of_mem _ (hmem e he)
    · obtain ⟨ext, heq, hmem⟩ := ih (t ++ [(p.pid, ⟨now, now, p.memory_rss, 0⟩)]) now
      refine ⟨(p.pid, ⟨now, now, p.memory_rss, 0⟩) :: ext, ?_, ?_⟩
      · rw [insertNewProcs, if_neg h, heq]
        simp
      · intro e he
        rcases List.mem_cons.mp he with he | he
        · subst he
          simp
        · exact List.mem_cons_of_mem _ (hmem e he)

theorem alistGet?_append_left {κ ν : Type} [DecidableEq κ]
    {d : List (κ × ν)} {k : κ} {v : ν} (h : alistGet? d k = some v)
    (ext : List (κ × ν)) : alistGet? (d ++ ext) k = some v := by
  rw [alistGet?_append, h]

theorem alistGet?_append_right {κ ν : Type} [DecidableEq κ]
    {d : List (κ × ν)} {k : κ} (h : alistGet? d k = none)
    (ext : List (κ × ν)) : alistGet? (d ++ ext) k = alistGet? ext k := by
  rw [alistGet?_append, h]

/-- Inserting arrivals never changes the binding of a pid outside the present
set (in particular of an already-tracked pid). -/
theorem insertNewProcs_get_preserved :
    ∀ (current : List ProcInfo) (tracked : List (Nat × TrackedInfo)) (now : ℚ)
      (k : Nat) (v : TrackedInfo), alistGet? tracked k = some v →
      alistGet? (insertNewProcs tracked now current) k = some v := by
  intro current
  induction current with
  | nil =>
    intro t now k v h
    simpa [insertNewProcs] using h
  | cons p rest ih =>
    intro t now k v h
    by_cases hp : alistHas t p.pid = true
    · rw [insertNewProcs, if_pos hp]
      exact ih t now k v h
    · rw [insertNewProcs, if_neg hp]
      exact ih _ now k v (alistGet?_append_left h _)

/-- A pid absent from the rest of the present list keeps its binding through
the arrival loop. -/
theorem insertNewProcs_get_not_mem :
    ∀ (current : List ProcInfo) (tracked : List (Nat × TrackedInfo)) (now : ℚ)
      (k : Nat), k ∉ current.map ProcInfo.pid →
      alistGet? (insertNewProcs tracked now current) k = alistGet? tracked k := by
  intro current
  induction current with
  | nil => intro t now k _; rfl
  | cons p rest ih =>
    intro t now k hk
    have hk' : k ∉ rest.map ProcInfo.pid := fun h => hk (List.mem_cons_of_mem _ h)
    have hkp : p.pid ≠ k := by
      intro h
      exact hk (h ▸ List.mem_cons_self _ _)
    by_cases hp : alistHas t p.pid = true
    · rw [insertNewProcs, if_pos hp, ih t now k hk']
    · rw [insertNewProcs, if_neg hp, ih _ now k hk',
        alistGet?_append]
      cases hg : alistGet? t k with
      | some v => rfl
      | none => simp [alistGet?, hkp]

/-- A present pid not yet tracked ends the arrival loop bound to a fresh
entry whose start and last-seen times are `now`. -/
theorem insertNewProcs_get_new :
    ∀ (current : List ProcInfo) (tracked : List (Nat × TrackedInfo)) (now : ℚ)
      (p : ProcInfo), (current.map ProcInfo.pid).Nodup → p ∈ current →
      alistHas tracked p.pid = false →
      alistGet? (insertNewProcs tracked now current) p.pid =
        some ⟨now, now, p.memory_rss, 0⟩ := by
  intro current
  induction current with
  | nil => intro t now p _ hp; simp at hp
  | cons q rest ih =>
    intro t now p hnd hp hhas
    have hnd' : (rest.map ProcInfo.pid).Nodup := (List.nodup_cons.mp hnd).2
    rcases List.mem_cons.mp hp with hq | hq
    · subst hq
      have hfalse : ¬ alistHas t p.pid = true := by simp [hhas]
      rw [insertNewProcs, if_neg hfalse]
      have hnotmem : p.pid ∉ rest.map ProcInfo.pid := (List.nodup_cons.mp hnd).1
      rw [insertNewProcs_get_not_mem rest _ now p.pid hnotmem]
      have hnone : alistGet? t p.pid = none := by
        unfold alistHas at hhas
        exact Option.not_isSome_iff_eq_none.mp (by simp [hhas])
      rw [alistGet?_append_right hnone]
      simp [alistGet?]
    · have hqp : q.pid ≠ p.pid := by
        intro h
        have : p.pid ∈ rest.map ProcInfo.pid := List.mem_map_of_mem _ hq
        exact (List.nodup_cons.mp hnd).1 (h ▸ this)
      by_cases hhq : alistHas t q.pid = true
      · rw [insertNewProcs, if_pos hhq]
        exact ih t now p hnd' hq hhas
      · rw [insertNewProcs, if_neg hhq]
        refine ih _ now p hnd' hq ?_
        unfold alistHas at hhas ⊢
        rw [alistGet?_append]
        cases hg : alistGet? t p.pid with
        | some v => rw [hg] at hhas; simp at hhas
        | none => simp [alistGet?, hqp]

/-- Key-determined filters keep the binding of any key they retain. -/
theorem alistGet?_filter_keep {ν : Type} (q : Nat → Bool) :
    ∀ (d : List (Nat × ν)) (k : Nat), q k = true →
      alistGet? (d.filter (fun e => q e.1)) k = alistGet? d k := by
  intro d
  induction d with
  | nil => intro k _; rfl
  | cons e rest ih =>
    intro k hk
    obtain ⟨k₀, w⟩ := e
    by_cases hk₀ : k₀ = k
    · subst hk₀
      rw [List.filter_cons, if_pos (by simpa using hk)]
      simp [alistGet?]
    · rw [List.filter_cons]
      by_cases hq : q k₀ = true
      · rw [if_pos (by simpa using hq)]
        simp [alistGet?, hk₀, ih k hk]
      · rw [if_neg (by simpa using hq), ih k hk]
        simp [alistGet?, hk₀]

/-- The update loop leaves keys outside the present set untouched. -/
theorem updateSeen_get_not_mem :
    ∀ (current : List ProcInfo) (tracked : List (Nat × TrackedInfo)) (now : ℚ)
      (k : Nat), k ∉ current.map ProcInfo.pid →
      alistGet? (updateSeen tracked now current) k = alistGet? tracked k := by
  intro current
  induction current with
  | nil => intro t now k _; rfl
  | cons p rest ih =>
    intro t now k hk
    have hk' : k ∉ rest.map ProcInfo.pid := fun h => hk (List.mem_cons_of_mem _ h)
    have hkp : p.pid ≠ k := by
      intro h
      exact hk (h ▸ List.mem_cons_self _ _)
    rw [updateSeen]
    cases hg : alistGet? t p.pid with
    | none => exact ih t now k hk'
    | some v =>
      rw [ih _ now k hk', alistGet?_set_other _ _ _ _ hkp]

/-- A present tracked pid ends the update loop with `last_seen = now` and its
start time unchanged. -/
theorem updateSeen_get_mem :
    ∀ (current : List ProcInfo) (tracked : List (Nat × TrackedInfo)) (now : ℚ)
      (p : ProcInfo) (v : TrackedInfo),
      (current.map ProcInfo.pid).Nodup → p ∈ current →
      alistGet? tracked p.pid = some v →
      alistGet? (updateSeen tracked now current) p.pid =
        some ⟨v.start_time, now, p.memory_rss, p.cpu⟩ := by
  intro current
  induction current with
  | nil => intro t now p v _ hp; simp at hp
  | cons q rest ih =>
    intro t now p v hnd hp hget
    have hnd' : (rest.map ProcInfo.pid).Nodup := (List.nodup_cons.mp hnd).2
    rcases List.mem_cons.mp hp with hq | hq
    · subst hq
      rw [updateSeen, hget]
      have hnotmem : p.pid ∉ rest.map ProcInfo.pid := (List.nodup_cons.mp hnd).1
      rw [updateSeen_get_not_mem rest _ now p.pid hnotmem, alistGet?_set_same]
    · have hqp : q.pid ≠ p.pid := by
        intro h
        have : p.pid ∈ rest.map ProcInfo.pid := List.mem_map_of_mem _ hq
        exact (List.nodup_cons.mp hnd).1 (h ▸ this)
      rw [updateSeen]
      cases hg : alistGet? t q.pid with
      | none => exact ih t now p v hnd' hq hget
      | some w =>
        refine ih _ now p v hnd' hq ?_
        rw [alistGet?_set_other _ _ _ _ hqp, hget]

/-- An association list with `Nodup` keys has exactly one entry for a bound
key. -/
theorem alist_filter_key {ν : Type} :
    ∀ (d : List (Nat × ν)) (k : Nat) (v : ν),
      alistGet? d k = some v → (d.map Prod.fst).Nodup →
      d.filter (fun e => decide (e.1 = k)) = [(k, v)] := by
  intro d
  induction d with
  | nil => intro k v h; simp [alistGet?] at h
  | cons e rest ih =>
    intro k v hget hnd
    obtain ⟨k₀, w⟩ := e
    by_cases hk : k₀ = k
    · subst hk
      rw [alistGet?] at hget
      simp only [if_pos rfl] at hget
      obtain rfl : w = v := by injection hget
      rw [List.filter_cons, if_pos (by simp)]
      have hrest : rest.filter (fun e => decide (e.1 = k₀)) = [] := by
        rw [List.filter_eq_nil_iff]
        intro e he
        have : e.1 ∈ rest.map Prod.fst := List.mem_map_of_mem _ he
        have hne : e.1 ≠ k₀ := by
          intro h
          exact (List.nodup_cons.mp (by simpa using hnd)).1 (h ▸ this)
        simp [hne]
      rw [hrest]
    · rw [alistGet?] at hget
      simp only [if_neg hk] at hget
      rw [List.filter_cons, if_neg (by simp [hk])]
      exact ih k v hget (by simpa using (List.nodup_cons.mp (by simpa using hnd)).2)

theorem filter_map_comm {α β : Type} (f : α → β) (q : β → Bool) :
    ∀ l : List α, (l.map f).filter q = (l.filter (fun a => q (f a))).map f := by
  intro l
  induction l with
  | nil => rfl
  | cons a rest ih =>
    by_cases h : q (f a) = true
    · simp [List.filter_cons, h, ih]
    · simp [List.filter_cons, h, ih]

/-! ### File Tailer lemmas -/

/-- When the file has not grown past its checkpoint (equal size, or a
shrunken/rotated file), the per-file body does nothing. -/
theorem tailerPollFile_noop_of_le (ps : List (List Char × Nat)) (f : LogFile)
    (h : f.content.length ≤ (alistGet? ps f.path).getD 0) :
    tailerPollFile ps f = ([], ps) := by
  simp only [tailerPollFile]
  by_cases hex : isExcluded f.path f.name = true
  · rw [if_pos hex]
  · rw [if_neg hex]
    have hnlt : ¬ ((alistGet? ps f.path).getD 0 < f.content.length) := by omega
    simp [hnlt]

/-- Checkpoints never decrease across one per-file step. -/
theorem tailerPollFile_pos_mono (ps : List (List Char × Nat)) (f : LogFile)
    (k : List Char) :
    (alistGet? ps k).getD 0 ≤ (alistGet? (tailerPollFile ps f).2 k).getD 0 := by
  simp only [tailerPollFile]
  by_cases hex : isExcluded f.path f.name = true
  · rw [if_pos hex]
  · rw [if_neg hex]
    by_cases hlt : (alistGet? ps f.path).getD 0 < f.content.length
    · rw [if_pos hlt]
      by_cases hk : f.path = k
      · subst hk
        simp only [alistGet?_set_same, Option.getD_some]
        omega
      · rw [alistGet?_set_other _ _ _ _ hk]
    · rw [if_neg hlt]

/-- Checkpoints never decrease across a whole poll. -/
theorem tailerPoll_pos_mono :
    ∀ (files : List LogFile) (ps : List (List Char × Nat)) (k : List Char),
      (alistGet? ps k).getD 0 ≤ (alistGet? (tailerPoll ps files).2 k).getD 0 := by
  intro files
  induction files with
  | nil => intro ps k; exact le_rfl
  | cons f rest ih =>
    intro ps k
    exact le_trans (tailerPollFile_pos_mono ps f k) (ih (tailerPollFile ps f).2 k)

/-- After the per-file step, the file's checkpoint is at least its size. -/
theorem tailerPollFile_covers (ps : List (List Char × Nat)) (f : LogFile)
    (hex : isExcluded f.path f.name = false) :
    f.content.length ≤ (alistGet? (tailerPollFile ps f).2 f.path).getD 0 := by
  simp only [tailerPollFile]
  rw [if_neg (by simp [hex])]
  by_cases hlt : (alistGet? ps f.path).getD 0 < f.content.length
  · rw [if_pos hlt]
    simp [alistGet?_set_same]
  · rw [if_neg hlt]
    show f.content.length ≤ (alistGet? ps f.path).getD 0
    omega

/-- After a poll, every non-excluded file's checkpoint is at least its size. -/
theorem tailerPoll_covers :
    ∀ (files : List LogFile) (ps : List (List Char × Nat)) (f : LogFile),
      f ∈ files → isExcluded f.path f.name = false →
      f.content.length ≤ (alistGet? (tailerPoll ps files).2 f.path).getD 0 := by
  intro files
  induction files with
  | nil => intro ps f hf; simp at hf
  | cons g rest ih =>
    intro ps f hf hex
    rcases List.mem_cons.mp hf with hg | hg
    · subst hg
      calc f.content.length ≤ (alistGet? (tailerPollFile ps f).2 f.path).getD 0 :=
            tailerPollFile_covers ps f hex
        _ ≤ (alistGet? (tailerPoll (tailerPollFile ps f).2 rest).2 f.path).getD 0 :=
            tailerPoll_pos_mono rest _ f.path
    · exact ih (tailerPollFile ps g).2 f hg hex

/-- A poll in which no file has grown past its checkpoint emits nothing and
leaves the checkpoints unchanged. -/
theorem tailerPoll_noop :
    ∀ (files : List LogFile) (ps : List (List Char × Nat)),
      (∀ f ∈ files, isExcluded f.path f.name = true ∨
        f.content.length ≤ (alistGet? ps f.path).getD 0) →
      tailerPoll ps files = ([], ps) := by
  intro files
  induction files with
  | nil => intro ps _; rfl
  | cons f rest ih =>
    intro ps h
    have hstep : tailerPollFile ps f = ([], ps) := by
      rcases h f (List.mem_cons_self f rest) with hex | hle
      · unfold tailerPollFile
        rw [if_pos hex]
      · exact tailerPollFile_noop_of_le ps f hle
    have hrest : tailerPoll ps rest = ([], ps) :=
      ih ps (fun g hg => h g (List.mem_cons_of_mem f hg))
    rw [tailerPoll, hstep, hrest]
    rfl

/-! ### Scan characterization -/

theorem scanPatterns_eq_filter (file : List Char) (n : Nat) (line : List Char) :
    ∀ pats : List (List Char),
      scanPatterns file n line pats =
        (pats.filter (fun p => containsSub p (pyLower line))).map
          (fun p => { file := file, line_number := n, content := pyStrip line,
                      pattern_matched := p }) := by
  intro pats
  induction pats with
  | nil => rfl
  | cons p rest ih =>
    by_cases h : containsSub p (pyLower line) = true
    · rw [scanPatterns, if_pos h, List.filter_cons, if_pos (by simpa using h),
        List.map_cons, ih]
    · rw [scanPatterns, if_neg (by simp [h]), List.filter_cons,
        if_neg (by simpa using h), ih]

theorem mem_scanPatterns {file : List Char} {n : Nat} {line : List Char}
    {r : LogMatch} :
    ∀ {pats : List (List Char)}, r ∈ scanPatterns file n line pats →
      r.file = file ∧ r.line_number = n ∧ r.content = pyStrip line ∧
        containsSub r.pattern_matched (pyLower line) = true := by
  intro pats
  induction pats with
  | nil => intro h; simp [scanPatterns] at h
  | cons p rest ih =>
    intro hr
    by_cases h : containsSub p (pyLower line) = true
    · rw [scanPatterns, if_pos h] at hr
      rcases List.mem_cons.mp hr with hr | hr
      · subst hr
        exact ⟨rfl, rfl, rfl, h⟩
      · exact ih hr
    · rw [scanPatterns, if_neg (by simp [h])] at hr
      exact ih hr

/-! ## Claim theorems -/

set_option maxRecDepth 200000

/-- **C1** — counterexample.  The claim states that after appending records to
an empty sink, `generate_report` reports a total equal to the number of
records appended.  Appending a single record yields `total_crashes = 2`:
splitting on `CRASH DETECTED:` leaves the leading newline-and-delimiter text
of the first block as an extra non-blank candidate section. -/
theorem report_total_one_append_counterexample :
    totalRecords (generate_report (some (appendAll [] [sampleProcRecord]))) =
      some 2 := by
  decide

/-- **C1** — amended.  For every non-empty sequence of appends starting from
an empty (or absent) sink file — hence for every interleaving of concurrent
appends, each append writing one whole block — `generate_report` reports
`total_crashes` equal to the number of records appended **plus one**, the
extra candidate being the text before the first block's `CRASH DETECTED:`
header.  The records' rendered bodies are assumed not to contain the
`CRASH DETECTED:` header text themselves. -/
theorem report_total_eq_appended_plus_one (rs : List CrashData) (hne : rs ≠ [])
    (hclean : ∀ r ∈ rs, pySplit needle (blockBody r) = [blockBody r]) :
    generate_report (some (appendAll [] rs)) = Report.stats (rs.length + 1) := by
  match rs, hne with
  | r :: rest, _ =>
    obtain ⟨secs, hsecs, hlen, hmem⟩ := pySplit_flatten_blocks rest r hclean
    rw [appendAll_eq_flatten, List.nil_append]
    simp only [generate_report]
    rw [hsecs]
    have hall : ∀ s ∈ hdrPre :: secs, (!(pyStrip s).isEmpty) = true := by
      intro s hs
      have hne : pyStrip s ≠ [] := by
        rcases List.mem_cons.mp hs with h | h
        · subst h
          exact pyStrip_ne_nil_of_mem eq_mem_hdrPre eq_not_space
        · exact pyStrip_ne_nil_of_mem (hmem s h) eq_not_space
      cases hl : pyStrip s with
      | nil => exact absurd hl hne
      | cons a l => rfl
    rw [List.filter_eq_self.mpr hall, if_neg (by simp)]
    simp [hlen]

/-- **C1** — witness for the amended theorem at a concrete two-append run. -/
theorem report_total_eq_appended_plus_one_witness :
    generate_report (some (appendAll [] [sampleProcRecord, sampleLogRecord])) =
      Report.stats 3 :=
  report_total_eq_appended_plus_one [sampleProcRecord, sampleLogRecord]
    (by simp) (by decide)

/-- **C2** — counterexample.  The claim states that a poll finding the file
smaller than its checkpoint resets the checkpoint to 0 and that the next poll
re-scans the full content.  With checkpoint 9 and a 5-byte file containing
"error", the poll leaves the checkpoint at 9 (not 0) and the next poll emits
nothing (no re-scan). -/
theorem rotation_reset_counterexample :
    (tailerPollFile [("C:/EVE/logs/r.log".toList, 9)]
        ⟨"C:/EVE/logs/r.log".toList, "r.log".toList, "error".toList⟩) =
      ([], [("C:/EVE/logs/r.log".toList, 9)]) ∧
    (tailerPoll [("C:/EVE/logs/r.log".toList, 9)]
        [⟨"C:/EVE/logs/r.log".toList, "r.log".toList, "error".toList⟩]).1 = [] := by
  decide

/-- **C2** — amended.  Whenever the file's current size does not exceed the
checkpoint (in particular after truncation or rotation), the poll emits
nothing and leaves the checkpoint unchanged: there is no reset to 0 and no
re-scan of earlier content. -/
theorem tailer_shrunk_file_noop (ps : List (List Char × Nat)) (f : LogFile)
    (h : f.content.length ≤ (alistGet? ps f.path).getD 0) :
    tailerPollFile ps f = ([], ps) :=
  tailerPollFile_noop_of_le ps f h

/-- **C2** — witness for the amended theorem. -/
theorem tailer_shrunk_file_noop_witness :
    tailerPollFile [("C:/EVE/logs/w.log".toList, 7)]
      ⟨"C:/EVE/logs/w.log".toList, "w.log".toList, "abc".toList⟩ =
      ([], [("C:/EVE/logs/w.log".toList, 7)]) :=
  tailer_shrunk_file_noop [("C:/EVE/logs/w.log".toList, 7)]
    ⟨"C:/EVE/logs/w.log".toList, "w.log".toList, "abc".toList⟩ (by decide)

/-- **C3** — counterexample.  The claim states at most one record per line,
carrying the first matching pattern.  The single line "fatal error" yields two
records (for "error" and then "fatal error"): the pattern loop has no
`break`. -/
theorem multi_pattern_per_line_counterexample :
    ((tailerPollFile [] ⟨"C:/EVE/logs/c.log".toList, "c.log".toList,
        "fatal error".toList⟩).1.map (fun r => r.pattern_matched)) =
      ["error".toList, "fatal error".toList] := by
  decide

/-- **C3** — amended.  For every line of newly read text the tailer emits one
`LogPatternMatch` record per fixed pattern occurring (case-insensitively) in
the line, in pattern-list order — `k` matching patterns yield exactly `k`
records, not at most one. -/
theorem one_record_per_matching_pattern (file : List Char) (n : Nat)
    (line : List Char) :
    scanPatterns file n line error_patterns =
      (error_patterns.filter (fun p => containsSub p (pyLower line))).map
        (fun p => { file := file, line_number := n, content := pyStrip line,
                    pattern_matched := p }) :=
  scanPatterns_eq_filter file n line error_patterns

/-- **C4** — counterexample.  The claim states the record carries the 1-based
cumulative line number.  After a first poll of the 2-byte file "x\n",
appending "error\n" places the match on the file's second line (index 1 of the
full split, as the second conjunct shows), yet the emitted record carries
`line_number = 3`: the code adds the checkpoint **byte** offset 2 to the local
line index. -/
theorem line_number_counterexample :
    ((tailerPoll (tailerPoll [] [⟨"C:/EVE/logs/d.log".toList, "d.log".toList,
          "x\n".toList⟩]).2
        [⟨"C:/EVE/logs/d.log".toList, "d.log".toList, "x\nerror\n".toList⟩]).1.map
      (fun r => r.line_number)) = [3] ∧
    pySplit ['\n'] "x\nerror\n".toList = ["x".toList, "error".toList, []] := by
  decide

/-- **C4** — amended.  Every record emitted by one read carries
`line_number = last_position + i + 1`, where `last_position` is the checkpoint
byte offset at the start of the read and `i` is the 0-based index of the
matched line within the newly read content — a cumulative line number only
when the checkpoint is 0. -/
theorem line_number_from_byte_offset (file : List Char) (last : Nat)
    (content : List Char) (r : LogMatch)
    (hr : r ∈ scanContent file last content) :
    ∃ i line, (pySplit ['\n'] content)[i]? = some line ∧
      r.line_number = last + i + 1 ∧
      containsSub r.pattern_matched (pyLower line) = true ∧
      r.content = pyStrip line ∧ r.file = file := by
  unfold scanContent at hr
  rw [List.mem_flatMap] at hr
  obtain ⟨⟨i, line⟩, hmem, hr⟩ := hr
  obtain ⟨hf, hn, hc, hp⟩ := mem_scanPatterns hr
  exact ⟨i, line, List.mk_mem_enum_iff_getElem?.mp hmem, hn, hp, hc, hf⟩

/-- **C4** — witness for the amended theorem. -/
theorem line_number_from_byte_offset_witness :
    ∃ i line, (pySplit ['\n'] "error\n".toList)[i]? = some line ∧
      (⟨"f".toList, 3, "error".toList, "error".toList⟩ : LogMatch).line_number =
        2 + i + 1 ∧
      containsSub
        (⟨"f".toList, 3, "error".toList, "error".toList⟩ : LogMatch).pattern_matched
        (pyLower line) = true ∧
      (⟨"f".toList, 3, "error".toList, "error".toList⟩ : LogMatch).content =
        pyStrip line ∧
      (⟨"f".toList, 3, "error".toList, "error".toList⟩ : LogMatch).file =
        "f".toList :=
  line_number_from_byte_offset "f".toList 2 "error\n".toList
    ⟨"f".toList, 3, "error".toList, "error".toList⟩ (by decide)

/-- **C5** — the code contradicts the repository's own exclusion test and
configuration (`tests/test_log_exclusion.py`, which classifies
`crash_monitor.log` as excluded via the `exclude_patterns` entry "monitor"):
`monitor_log_files` never consults the configured patterns, its skip test
passes `crash_monitor.log`, and a poll reads the file (one record from
"error\n") and creates a checkpoint entry for it. -/
theorem crash_monitor_log_is_read :
    isExcluded monitorNamedFile.path monitorNamedFile.name = false ∧
    (tailerPoll [] [monitorNamedFile]).2 = [(monitorNamedFile.path, 6)] ∧
    (tailerPoll [] [monitorNamedFile]).1.length = 1 := by
  decide

/-- **C6** — for a tracked pid absent from the present set, the cycle emits
exactly one `process_termination` record for that pid, with
`runtime_seconds = now - start_time`, `suspected_crash` decided by the strict
comparison `runtime < threshold` (so runtime exactly equal to the threshold
gives `false`), memory in MB, and the start/end timestamps. -/
theorem termination_record_spec (T : List (Nat × TrackedInfo)) (P : List ProcInfo)
    (now θ : ℚ) (pid : Nat) (info : TrackedInfo)
    (hget : alistGet? T pid = some info)
    (hnodup : (T.map Prod.fst).Nodup)
    (habs : pid ∉ P.map ProcInfo.pid) :
    ((monitor_processes_cycle T P now θ).2.filter (fun r => decide (r.pid = pid))) =
      [{ timestamp := now, pid := pid,
         runtime_seconds := now - info.start_time,
         start_time := info.start_time, end_time := now,
         memory_usage_mb := (info.memory_usage : ℚ) / (1024 * 1024),
         suspected_crash := decide (now - info.start_time < θ) }] := by
  obtain ⟨ext, hsplit, hext⟩ := insertNewProcs_split P T now
  simp only [monitor_processes_cycle]
  rw [filter_map_comm]
  have hproj : ∀ e : Nat × TrackedInfo,
      (fun r : ProcTermRecord => decide (r.pid = pid)) (mkTermRecord now θ e) =
        decide (e.1 = pid) := fun e => rfl
  simp only [hproj, List.filter_filter]
  have hcongr : ∀ e ∈ insertNewProcs T now P,
      (decide (e.1 = pid) && !decide (e.1 ∈ P.map ProcInfo.pid)) =
        decide (e.1 = pid) := by
    intro e _
    by_cases h : e.1 = pid
    · subst h
      simp [habs]
    · simp [h]
  rw [List.filter_congr hcongr, hsplit, List.filter_append]
  have hextnil : ext.filter (fun e => decide (e.1 = pid)) = [] := by
    rw [List.filter_eq_nil_iff]
    intro e he
    have : e.1 ∈ P.map ProcInfo.pid := hext e he
    have hne : e.1 ≠ pid := fun h => habs (h ▸ this)
    simp [hne]
  rw [alist_filter_key T pid info hget hnodup, hextnil, List.append_nil]
  rfl

/-- **C6** — witness: a process tracked from time 0 that is gone at time 10
with threshold 30 yields one record with runtime 10 and a suspected crash. -/
theorem termination_record_spec_witness :
    ((monitor_processes_cycle [(7, ⟨0, 0, 1048576, 0⟩)] [] 10 30).2.filter
        (fun r => decide (r.pid = 7))) =
      [{ timestamp := 10, pid := 7, runtime_seconds := 10, start_time := 0,
         end_time := 10, memory_usage_mb := 1, suspected_crash := true }] := by
  have h := termination_record_spec [(7, ⟨0, 0, 1048576, 0⟩)] [] 10 30 7
    ⟨0, 0, 1048576, 0⟩ (by simp [alistGet?]) (by simp) (by simp)
  rw [h]
  norm_num

/-- **C7** — in one poll cycle, every emitted record's pid was already in the
tracked map before the cycle and is absent from the present set (a pid first
seen this cycle is never reported terminated); and every present pid not yet
tracked ends the cycle tracked with start time and last-seen equal to `now`. -/
theorem arrival_no_termination (T : List (Nat × TrackedInfo)) (P : List ProcInfo)
    (now θ : ℚ) (hP : (P.map ProcInfo.pid).Nodup) :
    (∀ r ∈ (monitor_processes_cycle T P now θ).2,
        alistHas T r.pid = true ∧ r.pid ∉ P.map ProcInfo.pid) ∧
    (∀ p ∈ P, alistHas T p.pid = false →
        alistGet? (monitor_processes_cycle T P now θ).1 p.pid =
          some ⟨now, now, p.memory_rss, p.cpu⟩) := by
  obtain ⟨ext, hsplit, hext⟩ := insertNewProcs_split P T now
  constructor
  · intro r hr
    simp only [monitor_processes_cycle] at hr
    rw [List.mem_map] at hr
    obtain ⟨e, he, hre⟩ := hr
    rw [List.mem_filter] at he
    obtain ⟨ht1, hcond⟩ := he
    have hnotmem : e.1 ∉ P.map ProcInfo.pid := by
      simpa using hcond
    have hmemT : e ∈ T := by
      rw [hsplit] at ht1
      rcases List.mem_append.mp ht1 with h | h
      · exact h
      · exact absurd (hext e h) hnotmem
    have hpid : r.pid = e.1 := by rw [← hre]; rfl
    rw [hpid]
    exact ⟨alistHas_of_mem hmemT, hnotmem⟩
  · intro p hp hhas
    have hpid : p.pid ∈ P.map ProcInfo.pid := List.mem_map_of_mem _ hp
    have h1 : alistGet? (insertNewProcs T now P) p.pid =
        some ⟨now, now, p.memory_rss, 0⟩ :=
      insertNewProcs_get_new P T now p hP hp hhas
    have h2 : alistGet? ((insertNewProcs T now P).filter
        (fun e => decide (e.1 ∈ P.map ProcInfo.pid))) p.pid =
        some ⟨now, now, p.memory_rss, 0⟩ := by
      rw [alistGet?_filter_keep (fun k => decide (k ∈ P.map ProcInfo.pid)) _ _
        (by simp [hpid])]
      exact h1
    simp only [monitor_processes_cycle]
    exact updateSeen_get_mem P _ now p ⟨now, now, p.memory_rss, 0⟩ hP hp h2

/-- **C7** — witness: a pid first observed this cycle is tracked from `now`. -/
theorem arrival_no_termination_witness :
    alistGet? (monitor_processes_cycle [] [⟨5, 2048, 3⟩] 1 30).1 5 =
      some ⟨1, 1, 2048, 3⟩ :=
  (arrival_no_termination [] [⟨5, 2048, 3⟩] 1 30 (by simp)).2 ⟨5, 2048, 3⟩
    (by simp) rfl

/-- **C8** — polling the tailer twice with no intervening change to any file
yields no records on the second poll and leaves every checkpoint exactly as
after the first poll. -/
theorem tailer_poll_idempotent (ps : List (List Char × Nat)) (files : List LogFile) :
    tailerPoll (tailerPoll ps files).2 files = ([], (tailerPoll ps files).2) := by
  apply tailerPoll_noop
  intro f hf
  cases hex : isExcluded f.path f.name with
  | true => exact Or.inl rfl
  | false => exact Or.inr (tailerPoll_covers files ps f hf hex)

/-- **C9** — `get_recent_crash_events` is total by construction and returns
the empty list both when the win32 event-log facility is unavailable and when
opening/reading the log fails (the error is swallowed by the surrounding
`try`/`except`). -/
theorem event_log_poll_swallows_errors (avail : Bool)
    (readResult : Except (List Char) (List EventLogEntry)) (since : ℚ) :
    (avail = false → get_recent_crash_events avail readResult since = []) ∧
    (∀ msg, readResult = .error msg →
      get_recent_crash_events avail readResult since = []) := by
  constructor
  · intro h
    subst h
    rfl
  · intro msg h
    subst h
    cases avail <;> rfl

/-- **C9** — witness. -/
theorem event_log_poll_swallows_errors_witness :
    get_recent_crash_events false (Except.ok []) 0 = [] ∧
    get_recent_crash_events true (Except.error "boom".toList) 0 = [] :=
  ⟨(event_log_poll_swallows_errors false (Except.ok []) 0).1 rfl,
   (event_log_poll_swallows_errors true (Except.error "boom".toList) 0).2 _ rfl⟩

/-- **C10** — a missing sink file yields the message-only "No crash data
found" result; a sink file with no record blocks (the empty file produced by
zero appends, or whitespace-only content) yields the message-only "No crashes
recorded" result; neither raises. -/
theorem report_messages_when_no_data :
    generate_report none = Report.noData ∧
    generate_report (some (appendAll [] [])) = Report.noCrashes ∧
    generate_report (some "  \n".toList) = Report.noCrashes :=
  ⟨rfl, by decide, by decide⟩

end EveMonitor
